import Mathlib

/-!
Verification of the categorical-distribution explorer specification against
the repository source.

The repository source under `src/app.py` is the natural-language-to-SQL and
database-healthcheck page (schema reflection with a blacklist, prompt
construction, healthcheck metrics and a pie-chart section).  Those parts are
embedded directly from the source below.

The aggregation pipeline (value counts with a missing-value placeholder,
explode of delimited or list-encoded cells, top-N slicing, slice-relative
percentages, lookup join), the table view (projection, case-insensitive
substring filter, stable single-column sort with nulls last) and the CSV
exporter are described by the specification but their implementation file is
not under `src/`; they are modelled from the specification text, as marked on
each definition.
-/

/-! ### Generic list helpers -/

/-- Accumulator pass of `uniqFirst`: emit each element not seen yet, in
order, remembering what has been seen. -/
def uniqFirstAux (seen : List String) : List String → List String
  | [] => []
  | t :: ts =>
    if t ∈ seen then uniqFirstAux seen ts
    else t :: uniqFirstAux (t :: seen) ts

/-- The sublist of first occurrences: keeps each element the first time it
appears, dropping later duplicates. -/
def uniqFirst (l : List String) : List String :=
  uniqFirstAux [] l

/-- Is this character ASCII whitespace? -/
def isSpaceChar (ch : Char) : Bool :=
  ch == ' ' || ch == '\t' || ch == '\n' || ch == '\r'

/-- Strip whitespace from both ends of a character list. -/
def trimChars (l : List Char) : List Char :=
  ((l.dropWhile isSpaceChar).reverse.dropWhile isSpaceChar).reverse

/-- Split a character list on a separator character; always returns one
more field than there are separators. -/
def splitOnChar (sep : Char) : List Char → List (List Char)
  | [] => [[]]
  | c :: cs =>
    match splitOnChar sep cs with
    | [] => [[c]]
    | f :: rest => if c == sep then [] :: f :: rest else (c :: f) :: rest

/-- Lower-case one ASCII letter. -/
def lowerChar (ch : Char) : Char :=
  if 65 ≤ ch.toNat ∧ ch.toNat ≤ 90 then Char.ofNat (ch.toNat + 32) else ch

/-- Pair every element of a list with its position, starting at `n`. -/
def withIdx : Nat → List α → List (Nat × α)
  | _, [] => []
  | n, a :: l => (n, a) :: withIdx (n + 1) l

/-- `charsStartWith hay needle` is true when `needle` occurs at the front of
`hay`. -/
def charsStartWith : List Char → List Char → Bool
  | _, [] => true
  | [], _ :: _ => false
  | h :: hs, n :: ns => h == n && charsStartWith hs ns

/-- `charsContain hay needle` is true when `needle` occurs contiguously
somewhere inside `hay`. -/
def charsContain : List Char → List Char → Bool
  | [], needle => needle.isEmpty
  | h :: hs, needle => charsStartWith (h :: hs) needle || charsContain hs needle

/-! ### Data model

Modelled from the spec: a dataset is an ordered sequence of rows, each a
mapping from column name to a scalar or delimited-string-encoded list; a
missing cell is `none`. -/

/-- Modelled from the spec: a row maps column names to optional scalar
cells. -/
abbrev Row := List (String × Option String)

/-- Modelled from the spec: an ordered, immutable sequence of rows. -/
structure Dataset where
  rows : List Row
deriving Repr

/-- Cell of a row in a given column; an absent column reads as a missing
value. -/
def getCell (r : Row) (c : String) : Option String :=
  (r.lookup c).getD none

/-- All cells of one column, in row order. -/
def columnCells (d : Dataset) (c : String) : List (Option String) :=
  d.rows.map (fun r => getCell r c)

/-! ### Aggregator (modelled from the spec, section 4.1) -/

/-- Modelled from the spec: the explicit placeholder label for missing
values. -/
def missingLabel : String := "(missing)"

/-- The single-quote character, used by the literal-list cell syntax. -/
def squote : Char := Char.ofNat 39

/-- Modelled from the spec: strip matching quotes from one trimmed item of
a literal-list cell; anything not properly quoted is malformed. -/
def stripQuotesChars (t : List Char) : Option (List Char) :=
  match t, t.reverse with
  | c1 :: _ :: _, c2 :: _ =>
    if (c1 == '"' && c2 == '"') || (c1 == squote && c2 == squote) then
      some (t.drop 1).dropLast
    else none
  | _, _ => none

/-- Modelled from the spec: strip matching quotes from one item of a
literal-list cell. -/
def stripQuotes (s : String) : Option String :=
  (stripQuotesChars (trimChars s.toList)).map List.asString

/-- Modelled from the spec: parse a literal-list encoded cell such as
`[.a., .b.]` (comma-delimited quoted items in square brackets); returns
`none` on malformed syntax. -/
def parseListLiteral (s : String) : Option (List String) :=
  match trimChars s.toList with
  | '[' :: rest =>
    match rest.getLast? with
    | some ']' =>
      let inner := rest.dropLast
      if trimChars inner = [] then some []
      else (splitOnChar ',' inner).mapM (fun item => stripQuotes item.asString)
    | _ => none
  | _ => none

/-- Modelled from the spec: explode one cell into tokens.  A missing cell
yields the placeholder label; a literal-list cell yields its parsed items,
or nothing at all when malformed (that cell's contribution is dropped);
any other cell is split on semicolons. -/
def explodeCell (cell : Option String) : List String :=
  match cell with
  | none => [missingLabel]
  | some s =>
    if (trimChars s.toList).head? == some '[' then
      match parseListLiteral s with
      | some items => items
      | none => []
    else
      (splitOnChar ';' s.toList).map (fun f => (trimChars f).asString)

/-- Modelled from the spec: the token a cell contributes when the explode
flag is off: the raw cell value, with missing cells mapped to the
placeholder label. -/
def rawCell (cell : Option String) : List String :=
  [cell.getD missingLabel]

/-- Tokens contributed by a list of cells, under the explode flag. -/
def tokensOfCells (explode : Bool) (cells : List (Option String)) : List String :=
  cells.flatMap (fun cell => if explode then explodeCell cell else rawCell cell)

/-- Tokens of one column of a dataset, under the explode flag. -/
def tokensOf (d : Dataset) (c : String) (explode : Bool) : List String :=
  tokensOfCells explode (columnCells d c)

/-- Modelled from the spec: value counts in first-encountered category
order. -/
def catCounts (tokens : List String) : List (String × Nat) :=
  (uniqFirst tokens).map (fun c => (c, tokens.count c))

/-- Modelled from the spec: the sort order on count entries — descending
count, ties broken by first-encountered order (position of the category's
first occurrence among the tokens). -/
def entryRel (tokens : List String) (a b : String × Nat) : Prop :=
  b.2 < a.2 ∨ (a.2 = b.2 ∧ List.indexOf a.1 tokens ≤ List.indexOf b.1 tokens)

instance (tokens : List String) (a b : String × Nat) :
    Decidable (entryRel tokens a b) := by
  unfold entryRel
  exact inferInstance

instance (tokens : List String) : IsTotal (String × Nat) (entryRel tokens) := by
  constructor
  intro a b
  rcases Nat.lt_trichotomy a.2 b.2 with h | h | h
  · exact Or.inr (Or.inl h)
  · rcases Nat.le_total (List.indexOf a.1 tokens) (List.indexOf b.1 tokens) with h' | h'
    · exact Or.inl (Or.inr ⟨h, h'⟩)
    · exact Or.inr (Or.inr ⟨h.symm, h'⟩)
  · exact Or.inl (Or.inl h)

instance (tokens : List String) : IsTrans (String × Nat) (entryRel tokens) := by
  constructor
  rintro a b c (hab | ⟨hab, hab'⟩) (hbc | ⟨hbc, hbc'⟩)
  · exact Or.inl (hbc.trans hab)
  · exact Or.inl (hbc ▸ hab)
  · exact Or.inl (hab ▸ hbc)
  · exact Or.inr ⟨hab.trans hbc, hab'.trans hbc'⟩

/-- Modelled from the spec: count entries sorted by descending count with
first-encountered tie-break. -/
def sortedEntries (tokens : List String) : List (String × Nat) :=
  List.insertionSort (entryRel tokens) (catCounts tokens)

/-- Modelled from the spec: the total number of distinct categories among
the tokens. -/
def distinctCount (tokens : List String) : Nat :=
  (uniqFirst tokens).length

/-- Modelled from the spec: the top-N slice — the first N sorted entries,
N bounded by the distinct-category count, minimum 1. -/
def topSlice (tokens : List String) (n : Nat) : List (String × Nat) :=
  (sortedEntries tokens).take (min (max n 1) (distinctCount tokens))

/-- Modelled from the spec: rounding to 2 decimals. -/
def round2 (q : ℚ) : ℚ :=
  (round (100 * q) : ℤ) / 100

/-- One returned category entry: label, count and percent of the slice. -/
structure CatEntry where
  cat : String
  count : Nat
  pct : ℚ
deriving Repr, DecidableEq

/-- The sum of the counts of a slice, the denominator of the slice-relative
percentages. -/
def sliceTotal (slice : List (String × Nat)) : Nat :=
  (slice.map (fun e => e.2)).sum

/-- Modelled from the spec: attach to each slice entry its percentage of the
slice total, rounded to 2 decimals. -/
def addPcts (slice : List (String × Nat)) : List CatEntry :=
  slice.map (fun e => ⟨e.1, e.2, round2 (100 * (e.2 : ℚ) / (sliceTotal slice : ℕ))⟩)

/-- Modelled from the spec: the whole aggregation pipeline for one column:
tokens, counts, descending sort, top-N slice, slice-relative percentages;
an empty slice is signalled as no-data (`none`) instead of raising. -/
def aggregate (d : Dataset) (c : String) (explode : Bool) (n : Nat) :
    Option (List CatEntry) :=
  if (topSlice (tokensOf d c explode) n).isEmpty then none
  else some (addPcts (topSlice (tokensOf d c explode) n))

/-- One entry of the lookup-joined result: the category entry plus an
optional description. -/
structure JoinedEntry where
  entry : CatEntry
  desc : Option String
deriving Repr, DecidableEq

/-- Modelled from the spec: left-join a lookup table (code-to-description
pairs) onto the aggregated slice, keeping every slice row and using a null
description where no code matches. -/
def aggregateWithLookup (lut : List (String × String)) (d : Dataset)
    (c : String) (explode : Bool) (n : Nat) : Option (List JoinedEntry) :=
  (aggregate d c explode n).map
    (fun es => es.map (fun e => ⟨e, lut.lookup e.cat⟩))

/-! ### Table view (modelled from the spec, section 4.2) -/

/-- Case-insensitive substring containment, the table-filter match. -/
def containsCI (hay needle : String) : Bool :=
  charsContain (hay.toList.map lowerChar) (needle.toList.map lowerChar)

/-- The string a cell displays as (missing cells display empty). -/
def cellStr (cell : Option String) : String :=
  cell.getD ""

/-- Modelled from the spec: a row matches a filter term when the term occurs
case-insensitively in at least one displayed column. -/
def rowMatches (cols : List String) (term : String) (r : Row) : Bool :=
  cols.any (fun c => containsCI (cellStr (getCell r c)) term)

/-- Modelled from the spec: keep the rows matching the optional filter
term. -/
def filterRows (cols : List String) (filt : Option String) (l : List Row) :
    List Row :=
  match filt with
  | none => l
  | some term => l.filter (rowMatches cols term)

/-- Modelled from the spec: the sort order on optional cell values — real
values ordered by the sort direction, null values last regardless of
direction. -/
def keyLE (asc : Bool) : Option String → Option String → Prop
  | none, none => True
  | none, some _ => False
  | some _, none => True
  | some x, some y => if asc then x ≤ y else y ≤ x

instance (asc : Bool) (a b : Option String) : Decidable (keyLE asc a b) := by
  cases a <;> cases b <;> simp only [keyLE] <;> infer_instance

/-- Modelled from the spec: the stable sort order on position-tagged rows —
cells compared by `keyLE`, ties broken by original position. -/
def rowRel (c : String) (asc : Bool) (a b : Nat × Row) : Prop :=
  (keyLE asc (getCell a.2 c) (getCell b.2 c) ∧ getCell a.2 c ≠ getCell b.2 c) ∨
    (getCell a.2 c = getCell b.2 c ∧ a.1 ≤ b.1)

instance (c : String) (asc : Bool) (a b : Nat × Row) :
    Decidable (rowRel c asc a b) := by
  unfold rowRel
  exact inferInstance

/-- Modelled from the spec: stable single-column sort of the rows, nulls
last; implemented by sorting position-tagged rows. -/
def sortRowsAux (c : String) (asc : Bool) (l : List Row) : List (Nat × Row) :=
  List.insertionSort (rowRel c asc) (withIdx 0 l)

/-- Modelled from the spec: stable single-column sort of the rows. -/
def sortRows (c : String) (asc : Bool) (l : List Row) : List Row :=
  (sortRowsAux c asc l).map (fun p => p.2)

/-- Modelled from the spec: project a row onto the displayed columns. -/
def projectRow (cols : List String) (r : Row) : Row :=
  cols.map (fun c => (c, getCell r c))

/-- Modelled from the spec: the table view — project onto the displayed
columns, filter first, then sort. -/
def tableView (d : Dataset) (cols : List String) (filt : Option String)
    (srt : Option (String × Bool)) : List Row :=
  let filtered := filterRows cols filt (d.rows.map (projectRow cols))
  match srt with
  | none => filtered
  | some (c, asc) => sortRows c asc filtered

/-! ### CSV exporter (modelled from the spec, section 4.3) -/

/-- A field must be quoted when it holds a delimiter, a quote or a line
break. -/
def needsQuote (s : String) : Bool :=
  s.toList.any (fun ch => ch == ',' || ch == '"' || ch == '\n' || ch == '\r')

/-- Double every quote character, the CSV escape. -/
def escapeQuotes : List Char → List Char
  | [] => []
  | ch :: cs =>
    if ch == '"' then '"' :: '"' :: escapeQuotes cs else ch :: escapeQuotes cs

/-- Modelled from the spec: serialize one field, quoting when needed. -/
def encodeField (s : String) : List Char :=
  if needsQuote s then '"' :: (escapeQuotes s.toList ++ ['"']) else s.toList

/-- Join character chunks with a separator between consecutive chunks. -/
def joinSep (sep : List Char) : List (List Char) -> List Char
  | [] => []
  | [x] => x
  | x :: y :: rest => x ++ sep ++ joinSep sep (y :: rest)

/-- Modelled from the spec: serialize one record, comma-delimited. -/
def encodeRecord (fields : List String) : List Char :=
  joinSep [','] (fields.map encodeField)

/-- Modelled from the spec: serialize header and rows to CSV text, one
record per line. -/
def writeCSV (cols : List String) (rws : List (List String)) : List Char :=
  joinSep ['\n'] ((cols :: rws).map encodeRecord)

/-- State of the CSV reading automaton: inside an unquoted field, inside a
quoted field, or just past a closing quote. -/
inductive CsvMode where
  | normal
  | quoted
  | afterQuote
deriving Repr, DecidableEq

/-- Accumulator of the CSV reading automaton. -/
structure CsvAcc where
  mode : CsvMode
  field : List Char
  record : List String
  out : List (List String)
deriving Repr, DecidableEq

/-- One step of the CSV reading automaton. -/
def csvStep (acc : CsvAcc) (ch : Char) : CsvAcc :=
  match acc.mode with
  | CsvMode.normal =>
    if ch == '"' && acc.field.isEmpty then
      { acc with mode := CsvMode.quoted }
    else if ch == ',' then
      { acc with field := [], record := acc.record ++ [acc.field.asString] }
    else if ch == '\n' then
      { acc with field := [], record := [],
                 out := acc.out ++ [acc.record ++ [acc.field.asString]] }
    else
      { acc with field := acc.field ++ [ch] }
  | CsvMode.quoted =>
    if ch == '"' then
      { acc with mode := CsvMode.afterQuote }
    else
      { acc with field := acc.field ++ [ch] }
  | CsvMode.afterQuote =>
    if ch == '"' then
      { acc with mode := CsvMode.quoted, field := acc.field ++ [ch] }
    else if ch == ',' then
      { acc with mode := CsvMode.normal, field := [],
                 record := acc.record ++ [acc.field.asString] }
    else if ch == '\n' then
      { acc with mode := CsvMode.normal, field := [], record := [],
                 out := acc.out ++ [acc.record ++ [acc.field.asString]] }
    else
      { acc with mode := CsvMode.normal, field := acc.field ++ [ch] }

/-- The initial automaton state. -/
def csvInit : CsvAcc :=
  ⟨CsvMode.normal, [], [], []⟩

/-- Close the final field and record of the automaton run. -/
def csvFinish (acc : CsvAcc) : List (List String) :=
  acc.out ++ [acc.record ++ [acc.field.asString]]

/-- Parse CSV text into records. -/
def parseRecords (input : List Char) : List (List String) :=
  csvFinish (input.foldl csvStep csvInit)

/-- Parse CSV text into a header and rows. -/
def parseCSV (input : List Char) : Option (List String × List (List String)) :=
  match parseRecords input with
  | [] => none
  | h :: t => some (h, t)

/-! ### Source embeddings from `src/app.py` -/

/-- Round half to even at integer precision, the rounding used by the
percentage formatting in the pie chart. -/
def rhe (q : ℚ) : ℤ :=
  if q - ⌊q⌋ < 1 / 2 then ⌊q⌋
  else if 1 / 2 < q - ⌊q⌋ then ⌊q⌋ + 1
  else if 2 ∣ ⌊q⌋ then ⌊q⌋ else ⌊q⌋ + 1

/-- Render a nonnegative integer number of tenths as a one-decimal
string. -/
def decFrac1 (n : ℤ) : String :=
  toString (n / 10) ++ "." ++ toString (n % 10)

/-- Render a nonnegative integer number of hundredths as a two-decimal
string. -/
def decFrac2 (n : ℤ) : String :=
  toString (n / 100) ++ "." ++ (if n % 100 < 10 then "0" else "") ++ toString (n % 100)

/-- From `src/app.py` (Healthcheck pie chart): the `autopct` callback
`lambda p: f"{p:.1f}%" if p > 0 else ""` — the percentage formatted to one
decimal place, or the empty string when not positive. -/
def autopct (p : ℚ) : String :=
  if 0 < p then decFrac1 (rhe (10 * p)) ++ "%" else ""

/-- Follows the claim's words, for comparison with `autopct`: the
percentage rendered rounded to exactly 2 decimal places. -/
def specAutopct2 (p : ℚ) : String :=
  if 0 < p then decFrac2 (rhe (100 * p)) ++ "%" else ""

/-- From `src/app.py` (Healthcheck pie chart): the percentages the chart
library hands to `autopct` — each wedge value as a percentage of the sum of
the data passed to `ax.pie`, i.e. of the slice total. -/
def piePercents (vals : List Nat) : List ℚ :=
  vals.map (fun v : ℕ => 100 * (v : ℚ) / ((vals.sum : ℕ) : ℚ))

/-- From `src/app.py`: the percentage strings the pie chart displays. -/
def pieAutopcts (vals : List Nat) : List String :=
  (piePercents vals).map autopct

/-- From `src/app.py`: one reflected database column. -/
structure DbColumn where
  name : String
  type : String
deriving Repr, DecidableEq

/-- From `src/app.py`: one reflected database table. -/
structure DbTable where
  name : String
  columns : List DbColumn
deriving Repr, DecidableEq

/-- From `src/app.py`: `SCHEMA_BLACKLIST = {'shared_leads_individual_incomplete'}`. -/
def SCHEMA_BLACKLIST : List String := ["shared_leads_individual_incomplete"]

/-- From `src/app.py` (`get_schema_str`): the column list of one table,
`", ".join(f"{c.name} {c.type}" ...)` wrapped as `name(cols)`. -/
def tableDesc (t : DbTable) : String :=
  t.name ++ "(" ++ String.intercalate ", " (t.columns.map (fun c => c.name ++ " " ++ c.type)) ++ ")"

/-- From `src/app.py` (`get_schema_str`): the description lines, one per
reflected table, skipping tables whose name is in `SCHEMA_BLACKLIST`. -/
def schemaLines : List DbTable → List String
  | [] => []
  | t :: ts =>
    if t.name ∈ SCHEMA_BLACKLIST then schemaLines ts
    else tableDesc t :: schemaLines ts

/-- From `src/app.py`: `get_schema_str` joins the lines with newlines. -/
def get_schema_str (tables : List DbTable) : String :=
  String.intercalate "\n" (schemaLines tables)

/-- From `src/app.py` (`generate_sql`): the prompt embedding the schema
text. -/
def generate_sql_prompt (tables : List DbTable) (nl : String) : String :=
  "You are an expert SQL assistant. Convert the user" ++ String.singleton squote ++
    "s instruction into a single PostgreSQL SELECT query. Output only the SQL.\n\n" ++
    "Schema:\n" ++ get_schema_str tables ++ "\n\nInstruction: " ++ nl

/-- From `src/app.py`: every name the module ever binds (imports, module
assignments, function definitions, page-local assignments on every page,
loop targets and comprehension-free locals), transcribed from the source.
Neither `axes` nor `fig` is among them. -/
def assignedNames : List String :=
  ["logging", "os", "pd", "st", "plt", "create_engine", "MetaData", "text",
   "sessionmaker", "BaseModel", "load_dotenv", "AzureOpenAI",
   "choice", "run_sql",
   "database", "user", "password", "azure_endpoint", "azure_api_key",
   "azure_api_version", "db_url", "engine", "Session", "meta", "tables",
   "client", "e",
   "SQLResponse", "SCHEMA_BLACKLIST", "get_schema_str", "generate_sql",
   "nl_query", "sql", "df", "lines", "cols", "prompt", "resp", "nl", "table",
   "healthcheck_metrics", "metrics", "chart_keys",
   "ax", "key", "data", "total", "color_map", "label", "label_lower",
   "wedges", "texts", "autotexts", "labels",
   "m", "df1", "df2", "df3", "lead_df", "with_leads", "verified"]

/-- From `src/app.py`: the names bound on the Healthcheck path when
execution reaches the chart loop at line 222: the module-level bindings
plus the page-local `healthcheck_metrics`, `metrics` and `chart_keys`. -/
def healthcheckLoopEnv : List String :=
  ["logging", "os", "pd", "st", "plt", "create_engine", "MetaData", "text",
   "sessionmaker", "BaseModel", "load_dotenv", "AzureOpenAI",
   "choice", "run_sql",
   "healthcheck_metrics", "metrics", "chart_keys"]

/-- A Python runtime error, as far as the page model needs one. -/
inductive PyError where
  | nameError (n : String)
deriving Repr, DecidableEq

/-- Evaluating a bare name against an environment of bound names: an
unbound name raises `NameError`. -/
def lookupName (env : List String) (n : String) : Except PyError Unit :=
  if n ∈ env then Except.ok () else Except.error (PyError.nameError n)

/-- The healthcheck metrics dictionary, as computed from the database by
`healthcheck_metrics` (the database values are external input). -/
abbrev Metrics := List (String × List (String × Int))

/-- From `src/app.py` (Healthcheck page body, lines 219-261): after the
metrics are computed and `chart_keys` is bound, the chart loop header
evaluates `zip(axes, chart_keys)`, the loop body draws on each axis, and
the page ends with `fig.tight_layout(...)` and `st.pyplot(fig)`.  The model
takes the computed metrics as input and evaluates the names the section
reads against the bound-name environment; it returns the names of the
display effects that were reached. -/
def healthcheckChartSection (env : List String) (metrics : Metrics) :
    Except PyError (List String) := do
  let chart_keys := ["Web Domain", "Duplicate Names", "Email Verification",
                     "Leads per Company"]
  let _ ← lookupName env "axes"
  let _drawn := chart_keys.map (fun k => (metrics.lookup k).getD [])
  let _ ← lookupName env "fig"
  Except.ok ["ax.pie", "fig.tight_layout", "st.pyplot"]

/-- From `src/app.py`: the Healthcheck page renders the chart section in
the environment of names actually bound on that path. -/
def healthcheckPage (metrics : Metrics) : Except PyError (List String) :=
  healthcheckChartSection healthcheckLoopEnv metrics

/-! ### Concrete instances used by witnesses and counterexamples -/

/-- The dataset of the specification example: a `status` column with values
A, A, B, C, C, C and one missing value. -/
def dsStatus : Dataset :=
  ⟨[[("status", some "A")], [("status", some "A")], [("status", some "B")],
    [("status", some "C")], [("status", some "C")], [("status", some "C")],
    [("status", none)]]⟩

/-- A dataset with 32 rows over 22 distinct categories: category A appears
11 times and B01 … B21 once each, so every slice percentage is an exact
multiple of 1/320 that rounding to 2 decimals moves by exactly 0.005. -/
def dsManyCats : Dataset :=
  ⟨(List.replicate 11 [("s", some "A")]) ++
    (["B01", "B02", "B03", "B04", "B05", "B06", "B07", "B08", "B09", "B10",
      "B11", "B12", "B13", "B14", "B15", "B16", "B17", "B18", "B19", "B20",
      "B21"].map (fun b => [("s", some b)]))⟩

/-! ### Helper lemmas -/

theorem schemaLines_eq_filter (ts : List DbTable) :
    schemaLines ts = (ts.filter (fun t => t.name ∉ SCHEMA_BLACKLIST)).map tableDesc := by
  induction ts with
  | nil => rfl
  | cons t ts ih =>
    by_cases h : t.name ∈ SCHEMA_BLACKLIST
    · simp [schemaLines, h, ih]
    · simp [schemaLines, h, ih]

theorem rhe_close (q : ℚ) : |(rhe q : ℚ) - q| ≤ 1 / 2 := by
  have hfl : ((⌊q⌋ : ℤ) : ℚ) ≤ q := Int.floor_le q
  have hfu : q < (⌊q⌋ : ℚ) + 1 := Int.lt_floor_add_one q
  unfold rhe
  split_ifs with h1 h2 h3 <;> rw [abs_le] <;> push_cast <;> constructor <;> linarith

theorem rhe_of_fract_lt {q : ℚ} {f : ℤ} (hf : ⌊q⌋ = f) (h : q - f < 1 / 2) :
    rhe q = f := by
  unfold rhe
  rw [hf, if_pos h]

theorem rhe_of_fract_gt {q : ℚ} {f : ℤ} (hf : ⌊q⌋ = f) (h : 1 / 2 < q - f) :
    rhe q = f + 1 := by
  unfold rhe
  rw [hf, if_neg (by linarith), if_pos h]

theorem round2_close (q : ℚ) : |round2 q - q| ≤ 1 / 200 := by
  have h : |(100 : ℚ) * q - (round (100 * q) : ℤ)| ≤ 1 / 2 := abs_sub_round (100 * q)
  rw [abs_sub_comm] at h
  unfold round2
  have h100 : (0 : ℚ) < 100 := by norm_num
  calc |(round (100 * q) : ℤ) / 100 - q|
      = |((round (100 * q) : ℤ) - 100 * q) / 100| := by ring_nf
    _ = |((round (100 * q) : ℤ) - 100 * q)| / 100 := by
        rw [abs_div]; norm_num
    _ ≤ (1 / 2) / 100 := by gcongr
    _ = 1 / 200 := by norm_num

/-! ### Claim C9 -/

/-- Claim C9: on the Healthcheck page the names `axes` and `fig` are never
assigned anywhere in the program, so after the metrics are computed the
chart loop header `zip(axes, chart_keys)` raises `NameError` for every
metrics value, and no chart-display effect is ever reached. -/
theorem healthcheck_page_raises_nameError :
    "axes" ∉ assignedNames ∧ "fig" ∉ assignedNames ∧
      ∀ m : Metrics, healthcheckPage m = Except.error (PyError.nameError "axes") := by
  refine ⟨by decide, by decide, fun m => ?_⟩
  rfl

/-! ### Claim C10 -/

/-- Claim C10: `get_schema_str` produces one description line per reflected
table except those in `SCHEMA_BLACKLIST`; a line occurs in the schema text
exactly when some non-blacklisted table produces it, so no blacklisted
table (in particular `shared_leads_individual_incomplete`) contributes a
line; and the SQL-generation prompt embeds exactly this schema text. -/
theorem schema_str_excludes_blacklist (tables : List DbTable) (nl : String) :
    get_schema_str tables =
      String.intercalate "\n"
        ((tables.filter (fun t => t.name ∉ SCHEMA_BLACKLIST)).map tableDesc) ∧
    (∀ line, line ∈ schemaLines tables ↔
      ∃ t, t ∈ tables ∧ t.name ∉ SCHEMA_BLACKLIST ∧ line = tableDesc t) ∧
    generate_sql_prompt tables nl =
      "You are an expert SQL assistant. Convert the user" ++ String.singleton squote ++
        "s instruction into a single PostgreSQL SELECT query. Output only the SQL.\n\n" ++
        "Schema:\n" ++ get_schema_str tables ++ "\n\nInstruction: " ++ nl := by
  refine ⟨?_, ?_, rfl⟩
  · unfold get_schema_str
    rw [schemaLines_eq_filter]
  · intro line
    rw [schemaLines_eq_filter]
    simp only [List.mem_map, List.mem_filter, decide_not]
    constructor
    · rintro ⟨t, ⟨ht, hbl⟩, rfl⟩
      exact ⟨t, ht, by simpa using hbl, rfl⟩
    · rintro ⟨t, ht, hbl, rfl⟩
      exact ⟨t, ⟨ht, by simpa using hbl⟩, rfl⟩

/-- Concrete check of claim C10: a two-table schema containing the
blacklisted table reduces to the single non-blacklisted line. -/
theorem schema_str_excludes_blacklist_witness :
    get_schema_str
        [⟨"t1", [⟨"id", "INTEGER"⟩]⟩,
         ⟨"shared_leads_individual_incomplete", [⟨"x", "TEXT"⟩]⟩] =
      String.intercalate "\n"
        (([⟨"t1", [⟨"id", "INTEGER"⟩]⟩,
           (⟨"shared_leads_individual_incomplete", [⟨"x", "TEXT"⟩]⟩ : DbTable)].filter
            (fun t => t.name ∉ SCHEMA_BLACKLIST)).map tableDesc) ∧
    (∀ line, line ∈ schemaLines
        [⟨"t1", [⟨"id", "INTEGER"⟩]⟩,
         ⟨"shared_leads_individual_incomplete", [⟨"x", "TEXT"⟩]⟩] ↔
      ∃ t, t ∈ [(⟨"t1", [⟨"id", "INTEGER"⟩]⟩ : DbTable),
                ⟨"shared_leads_individual_incomplete", [⟨"x", "TEXT"⟩]⟩] ∧
        t.name ∉ SCHEMA_BLACKLIST ∧ line = tableDesc t) ∧
    generate_sql_prompt
        [⟨"t1", [⟨"id", "INTEGER"⟩]⟩,
         ⟨"shared_leads_individual_incomplete", [⟨"x", "TEXT"⟩]⟩] "list leads" =
      "You are an expert SQL assistant. Convert the user" ++ String.singleton squote ++
        "s instruction into a single PostgreSQL SELECT query. Output only the SQL.\n\n" ++
        "Schema:\n" ++ get_schema_str
          [⟨"t1", [⟨"id", "INTEGER"⟩]⟩,
           ⟨"shared_leads_individual_incomplete", [⟨"x", "TEXT"⟩]⟩] ++
        "\n\nInstruction: " ++ "list leads" :=
  schema_str_excludes_blacklist
    [⟨"t1", [⟨"id", "INTEGER"⟩]⟩,
     ⟨"shared_leads_individual_incomplete", [⟨"x", "TEXT"⟩]⟩] "list leads"

/-! ### Claim C3 -/

/-- Claim C3, counterexample: the pie chart of the Healthcheck page reports
category percentages through the `autopct` callback, which formats to one
decimal place, not two: for wedge data `[1, 2]` it displays `33.3%` and
`66.7%`, while rendering the same slice-relative percentages rounded to
exactly 2 decimal places would display `33.33%` and `66.67%`. -/
theorem autopct_not_two_decimals :
    pieAutopcts [1, 2] = ["33.3%", "66.7%"] ∧
    (piePercents [1, 2]).map specAutopct2 = ["33.33%", "66.67%"] ∧
    pieAutopcts [1, 2] ≠ (piePercents [1, 2]).map specAutopct2 := by
  have hp : piePercents [1, 2] = [100 / 3, 200 / 3] := by
    unfold piePercents
    norm_num
  have h1 : rhe (10 * (100 / 3 : ℚ)) = 333 :=
    rhe_of_fract_lt (by rw [Int.floor_eq_iff]; norm_num) (by push_cast; norm_num)
  have h2 : rhe (10 * (200 / 3 : ℚ)) = 667 := by
    have := rhe_of_fract_gt (q := 10 * (200 / 3 : ℚ)) (f := 666)
      (by rw [Int.floor_eq_iff]; norm_num) (by push_cast; norm_num)
    simpa using this
  have h3 : rhe (100 * (100 / 3 : ℚ)) = 3333 :=
    rhe_of_fract_lt (by rw [Int.floor_eq_iff]; norm_num) (by push_cast; norm_num)
  have h4 : rhe (100 * (200 / 3 : ℚ)) = 6667 := by
    have := rhe_of_fract_gt (q := 100 * (200 / 3 : ℚ)) (f := 6666)
      (by rw [Int.floor_eq_iff]; norm_num) (by push_cast; norm_num)
    simpa using this
  have ha : pieAutopcts [1, 2] = ["33.3%", "66.7%"] := by
    unfold pieAutopcts
    rw [hp]
    simp only [List.map_cons, List.map_nil, autopct, if_pos (by norm_num : (0:ℚ) < 100 / 3),
      if_pos (by norm_num : (0:ℚ) < 200 / 3), h1, h2]
    rfl
  have hb : (piePercents [1, 2]).map specAutopct2 = ["33.33%", "66.67%"] := by
    rw [hp]
    simp only [List.map_cons, List.map_nil, specAutopct2,
      if_pos (by norm_num : (0:ℚ) < 100 / 3), if_pos (by norm_num : (0:ℚ) < 200 / 3), h3, h4]
    rfl
  refine ⟨ha, hb, ?_⟩
  rw [ha, hb]
  decide

/-! ### Claim C3, amended part -/

theorem aggregate_eq_addPcts {d : Dataset} {c : String} {ex : Bool} {n : Nat}
    {es : List CatEntry} (h : aggregate d c ex n = some es) :
    es = addPcts (topSlice (tokensOf d c ex) n) := by
  unfold aggregate at h
  split_ifs at h with hb
  exact (Option.some.inj h).symm

theorem addPcts_count_sum (slice : List (String × Nat)) :
    ((addPcts slice).map (fun x => x.count)).sum = sliceTotal slice := by
  unfold addPcts sliceTotal
  rw [List.map_map]
  rfl

theorem sum_map_pct (l : List ℕ) (S : ℚ) :
    (l.map (fun v : ℕ => 100 * (v : ℚ) / S)).sum = 100 * ((l.sum : ℕ) : ℚ) / S := by
  induction l with
  | nil => simp
  | cons a l ih =>
    rw [List.map_cons, List.sum_cons, ih, List.sum_cons]
    push_cast
    ring

/-- Claim C3 (amended): every percentage the aggregator returns is the
category count relative to the slice total (the sum of the returned
counts), rounded to 2 decimals and hence within 0.005 of the exact
slice-relative value; the percentages the healthcheck pie chart receives
are likewise relative to the slice total (they sum to exactly 100), but
its `autopct` callback formats them to one decimal place (within 0.05),
not two. -/
theorem percentages_slice_relative :
    (∀ (d : Dataset) (c : String) (ex : Bool) (n : Nat) (es : List CatEntry),
      aggregate d c ex n = some es →
      ∀ e ∈ es,
        e.pct = round2 (100 * (e.count : ℚ) / (((es.map (fun x => x.count)).sum : ℕ) : ℚ)) ∧
        |e.pct - 100 * (e.count : ℚ) / (((es.map (fun x => x.count)).sum : ℕ) : ℚ)| ≤ 1 / 200) ∧
    (∀ vals : List ℕ, 0 < vals.sum → (piePercents vals).sum = 100) ∧
    (∀ p : ℚ, 0 < p →
      autopct p = decFrac1 (rhe (10 * p)) ++ "%" ∧
      |((rhe (10 * p) : ℤ) : ℚ) / 10 - p| ≤ 1 / 20) := by
  refine ⟨?_, ?_, ?_⟩
  · intro d c ex n es h e he
    have hes := aggregate_eq_addPcts h
    subst hes
    rw [addPcts_count_sum]
    unfold addPcts at he
    rcases List.mem_map.mp he with ⟨p, _, rfl⟩
    exact ⟨rfl, round2_close _⟩
  · intro vals hpos
    unfold piePercents
    rw [sum_map_pct]
    have hS : (((vals.sum : ℕ) : ℚ)) ≠ 0 := by
      exact_mod_cast Nat.pos_iff_ne_zero.mp hpos
    rw [mul_div_assoc, div_self hS, mul_one]
  · intro p hp
    constructor
    · unfold autopct
      rw [if_pos hp]
    · have h := rhe_close (10 * p)
      have hrw : ((rhe (10 * p) : ℤ) : ℚ) / 10 - p = (((rhe (10 * p) : ℤ) : ℚ) - 10 * p) / 10 := by
        ring
      have habs : |(10 : ℚ)| = 10 := by norm_num
      rw [hrw, abs_div, habs]
      calc |((rhe (10 * p) : ℤ) : ℚ) - 10 * p| / 10 ≤ (1 / 2) / 10 := by gcongr
        _ = 1 / 20 := by norm_num

/-- Concrete check of the amended claim C3, on the specification example
dataset (top-2 of `status`: C with 3 of 5, A with 2 of 5) and on pie data
`[1, 2]`. -/
theorem percentages_slice_relative_witness :
    ((CatEntry.mk "C" 3 60).pct =
      round2 (100 * ((CatEntry.mk "C" 3 60).count : ℚ) /
        ((((addPcts [("C", 3), ("A", 2)]).map (fun x => x.count)).sum : ℕ) : ℚ))) ∧
    (|(CatEntry.mk "C" 3 60).pct - 100 * ((CatEntry.mk "C" 3 60).count : ℚ) /
        ((((addPcts [("C", 3), ("A", 2)]).map (fun x => x.count)).sum : ℕ) : ℚ)| ≤ 1 / 200) ∧
    (piePercents [1, 2]).sum = 100 ∧
    autopct (100 / 3) = decFrac1 (rhe (10 * (100 / 3))) ++ "%" ∧
    |((rhe (10 * (100 / 3 : ℚ)) : ℤ) : ℚ) / 10 - 100 / 3| ≤ 1 / 20 := by
  have hs : topSlice (tokensOf dsStatus "status" false) 2 = [("C", 3), ("A", 2)] := by
    decide
  have hagg : aggregate dsStatus "status" false 2 = some (addPcts [("C", 3), ("A", 2)]) := by
    unfold aggregate
    rw [hs]
    rfl
  have hlist : addPcts [("C", 3), ("A", 2)] = [CatEntry.mk "C" 3 60, CatEntry.mk "A" 2 40] := by
    norm_num [addPcts, sliceTotal, round2, round_eq]
  have hE : CatEntry.mk "C" 3 60 ∈ addPcts [("C", 3), ("A", 2)] := by
    rw [hlist]
    exact List.mem_cons_self _ _
  have h1 := percentages_slice_relative.1 dsStatus "status" false 2 _ hagg _ hE
  have h2 := percentages_slice_relative.2.1 [1, 2] (by norm_num)
  have h3 := percentages_slice_relative.2.2 (100 / 3) (by norm_num)
  exact ⟨h1.1, h1.2, h2, h3.1, h3.2⟩

/-! ### Claim C7 -/

theorem explodeCell_malformed_eq_nil {s : String}
    (h1 : (trimChars s.toList).head? = some '[')
    (h2 : parseListLiteral s = none) :
    explodeCell (some s) = [] := by
  simp only [explodeCell]
  rw [if_pos (by simp only [beq_iff_eq]; exact h1), h2]

/-- Claim C7: in explode mode a malformed list-encoded cell contributes
nothing — the tokens of the cells with it are the tokens of the cells
without it, so the aggregation over all other cells completes unchanged
(the aggregation is a function of the tokens alone); and an empty token
slice is signalled as no-data (`none`) rather than by raising. -/
theorem explode_skips_malformed_only :
    (∀ (cs1 cs2 : List (Option String)) (s : String),
      (trimChars s.toList).head? = some '[' →
      parseListLiteral s = none →
      tokensOfCells true (cs1 ++ some s :: cs2) = tokensOfCells true (cs1 ++ cs2)) ∧
    (∀ (d d' : Dataset) (c : String) (ex : Bool) (n : Nat),
      tokensOf d c ex = tokensOf d' c ex → aggregate d c ex n = aggregate d' c ex n) ∧
    (∀ (d : Dataset) (c : String) (ex : Bool) (n : Nat),
      tokensOf d c ex = [] → aggregate d c ex n = none) := by
  refine ⟨?_, ?_, ?_⟩
  · intro cs1 cs2 s h1 h2
    simp [tokensOfCells, explodeCell_malformed_eq_nil h1 h2]
  · intro d d' c ex n h
    unfold aggregate
    rw [h]
  · intro d c ex n h
    unfold aggregate
    rw [h]
    simp [topSlice, sortedEntries, catCounts, uniqFirst, uniqFirstAux]

/-- Concrete check of claim C7: the malformed cell `[oops` between two
well-formed cells contributes nothing, and the empty dataset aggregates to
the no-data signal. -/
theorem explode_skips_malformed_only_witness :
    tokensOfCells true ([some "x"] ++ some "[oops" :: [some "y"]) =
      tokensOfCells true ([some "x"] ++ [some "y"]) ∧
    aggregate (⟨[]⟩ : Dataset) "status" false 3 = none := by
  constructor
  · exact explode_skips_malformed_only.1 [some "x"] [some "y"] "[oops"
      (by decide) (by decide)
  · exact explode_skips_malformed_only.2.2 ⟨[]⟩ "status" false 3 rfl

/-! ### Claim C8 -/

theorem lookup_eq_none_of_no_match (lut : List (String × String)) (k : String)
    (h : ∀ p ∈ lut, p.1 ≠ k) : lut.lookup k = none := by
  induction lut with
  | nil => rfl
  | cons a lut ih =>
    have ha : a.1 ≠ k := h a (List.mem_cons_self a lut)
    have hk : (k == a.1) = false := by
      simp [beq_eq_false_iff_ne]
      exact fun he => ha he.symm
    cases a with
    | mk a1 a2 =>
      simp only [List.lookup, hk]
      exact ih (fun p hp => h p (List.mem_cons_of_mem _ hp))

/-- Claim C8: joining a lookup table onto the aggregated slice is a left
join — the output exists exactly when the aggregate does, keeps every slice
row in order (same length, same underlying entries), carries for each row
the lookup of its category, and a category with no match in the table gets
a null description. -/
theorem lookup_join_preserves_slice (lut : List (String × String)) (d : Dataset)
    (c : String) (ex : Bool) (n : Nat) (es : List CatEntry)
    (h : aggregate d c ex n = some es) :
    aggregateWithLookup lut d c ex n =
      some (es.map (fun e => JoinedEntry.mk e (lut.lookup e.cat))) ∧
    (es.map (fun e => JoinedEntry.mk e (lut.lookup e.cat))).length = es.length ∧
    ∀ je ∈ es.map (fun e => JoinedEntry.mk e (lut.lookup e.cat)),
      je.desc = lut.lookup je.entry.cat ∧
      ((∀ p ∈ lut, p.1 ≠ je.entry.cat) → je.desc = none) := by
  refine ⟨?_, List.length_map _ _, ?_⟩
  · unfold aggregateWithLookup
    rw [h]
    rfl
  · intro je hje
    rcases List.mem_map.mp hje with ⟨e, _, rfl⟩
    exact ⟨rfl, fun hnone => lookup_eq_none_of_no_match lut e.cat hnone⟩

/-- Concrete check of claim C8: with lookup table `[("A", "alpha")]` the
top-2 slice of the example dataset keeps both rows, `A` gets its
description and `C` (no match) gets a null description. -/
theorem lookup_join_preserves_slice_witness :
    aggregateWithLookup [("A", "alpha")] dsStatus "status" false 2 =
      some ((addPcts [("C", 3), ("A", 2)]).map
        (fun e => JoinedEntry.mk e ([("A", "alpha")].lookup e.cat))) ∧
    ((addPcts [("C", 3), ("A", 2)]).map
        (fun e => JoinedEntry.mk e ([("A", "alpha")].lookup e.cat))).length =
      (addPcts [("C", 3), ("A", 2)]).length ∧
    (JoinedEntry.mk (CatEntry.mk "C" 3 60) none).desc = none := by
  have hs : topSlice (tokensOf dsStatus "status" false) 2 = [("C", 3), ("A", 2)] := by
    decide
  have hagg : aggregate dsStatus "status" false 2 = some (addPcts [("C", 3), ("A", 2)]) := by
    unfold aggregate
    rw [hs]
    rfl
  have h := lookup_join_preserves_slice [("A", "alpha")] dsStatus "status" false 2 _ hagg
  exact ⟨h.1, h.2.1, rfl⟩

/-! ### Claim C4 -/

theorem withIdx_map_snd (n : Nat) (l : List α) :
    (withIdx n l).map (fun p => p.2) = l := by
  induction l generalizing n with
  | nil => rfl
  | cons a l ih =>
    simp only [withIdx, List.map_cons, ih]

theorem sortRows_perm (c : String) (asc : Bool) (l : List Row) :
    (sortRows c asc l).Perm l := by
  unfold sortRows sortRowsAux
  have h := (List.perm_insertionSort (rowRel c asc) (withIdx 0 l)).map (fun p => p.2)
  rwa [withIdx_map_snd] at h

theorem mem_filterRows {cols : List String} {term : String} {l : List Row} {r : Row}
    (h : r ∈ filterRows cols (some term) l) :
    r ∈ l ∧ ∃ c ∈ cols, containsCI (cellStr (getCell r c)) term = true := by
  unfold filterRows at h
  have h1 := List.mem_filter.mp h
  refine ⟨h1.1, ?_⟩
  have h2 := h1.2
  unfold rowMatches at h2
  exact List.any_eq_true.mp h2

/-- Claim C4: every row the table view returns under filter term `T`
contains `T` case-insensitively in at least one displayed column, and the
view without the filter has exactly as many rows as the dataset. -/
theorem table_filter_matches (d : Dataset) (cols : List String) (term : String)
    (srt : Option (String × Bool)) :
    (∀ r ∈ tableView d cols (some term) srt,
      ∃ c ∈ cols, containsCI (cellStr (getCell r c)) term = true) ∧
    (tableView d cols none srt).length = d.rows.length := by
  constructor
  · intro r hr
    match srt with
    | none =>
      exact (mem_filterRows hr).2
    | some (sc, asc) =>
      have hr' : r ∈ filterRows cols (some term) (d.rows.map (projectRow cols)) :=
        (sortRows_perm sc asc _).mem_iff.mp hr
      exact (mem_filterRows hr').2
  · match srt with
    | none =>
      simp [tableView, filterRows]
    | some (sc, asc) =>
      calc (sortRows sc asc (filterRows cols none (d.rows.map (projectRow cols)))).length
          = (filterRows cols none (d.rows.map (projectRow cols))).length :=
            (sortRows_perm sc asc _).length_eq
        _ = d.rows.length := by simp [filterRows]

/-- Concrete check of claim C4: filtering the example dataset for `c`
returns rows whose `status` contains it case-insensitively, and the
unfiltered view has all 7 rows. -/
theorem table_filter_matches_witness :
    (∃ c ∈ ["status"],
      containsCI (cellStr (getCell [("status", some "C")] c)) "c" = true) ∧
    (tableView dsStatus ["status"] none none).length = dsStatus.rows.length := by
  refine ⟨?_, (table_filter_matches dsStatus ["status"] "c" none).2⟩
  exact (table_filter_matches dsStatus ["status"] "c" none).1 [("status", some "C")]
    (by decide)

/-! ### Claim C2 -/

theorem mem_uniqFirstAux {x : String} {seen l : List String} :
    x ∈ uniqFirstAux seen l ↔ x ∈ l ∧ x ∉ seen := by
  induction l generalizing seen with
  | nil => simp [uniqFirstAux]
  | cons t ts ih =>
    unfold uniqFirstAux
    by_cases ht : t ∈ seen
    · rw [if_pos ht, ih]
      constructor
      · rintro ⟨h1, h2⟩
        exact ⟨List.mem_cons_of_mem _ h1, h2⟩
      · rintro ⟨h1, h2⟩
        rcases List.mem_cons.mp h1 with rfl | h1
        · exact absurd ht h2
        · exact ⟨h1, h2⟩
    · rw [if_neg ht]
      by_cases hx : x = t
      · subst hx
        simp [ht]
      · simp only [List.mem_cons, hx, false_or]
        rw [ih]
        constructor
        · rintro ⟨h1, h2⟩
          exact ⟨h1, fun hs => h2 (List.mem_cons_of_mem _ hs)⟩
        · rintro ⟨h1, h2⟩
          exact ⟨h1, fun hs => by
            rcases List.mem_cons.mp hs with h | h
            · exact hx h
            · exact h2 h⟩

theorem mem_uniqFirst {x : String} {l : List String} :
    x ∈ uniqFirst l ↔ x ∈ l := by
  unfold uniqFirst
  rw [mem_uniqFirstAux]
  simp

theorem nodup_uniqFirstAux (seen l : List String) :
    (uniqFirstAux seen l).Nodup := by
  induction l generalizing seen with
  | nil => exact List.nodup_nil
  | cons t ts ih =>
    unfold uniqFirstAux
    by_cases ht : t ∈ seen
    · rw [if_pos ht]
      exact ih seen
    · rw [if_neg ht]
      refine List.Nodup.cons ?_ (ih (t :: seen))
      intro hmem
      exact (mem_uniqFirstAux.mp hmem).2 (List.mem_cons_self _ _)

theorem uniqFirst_nodup (l : List String) : (uniqFirst l).Nodup :=
  nodup_uniqFirstAux [] l

theorem map_fst_catCounts (tokens : List String) :
    (catCounts tokens).map (fun e => e.1) = uniqFirst tokens := by
  unfold catCounts
  rw [List.map_map]
  exact List.map_id _

theorem mem_catCounts {tokens : List String} {e : String × Nat}
    (h : e ∈ catCounts tokens) : e.2 = tokens.count e.1 ∧ e.1 ∈ tokens := by
  unfold catCounts at h
  rcases List.mem_map.mp h with ⟨c, hc, rfl⟩
  exact ⟨rfl, mem_uniqFirst.mp hc⟩

theorem topSlice_sublist (tokens : List String) (n : Nat) :
    (topSlice tokens n).Sublist (sortedEntries tokens) :=
  List.take_sublist _ _

theorem mem_topSlice {tokens : List String} {n : Nat} {e : String × Nat}
    (h : e ∈ topSlice tokens n) : e.2 = tokens.count e.1 ∧ e.1 ∈ tokens :=
  mem_catCounts
    ((List.perm_insertionSort (entryRel tokens) (catCounts tokens)).mem_iff.mp
      ((topSlice_sublist tokens n).mem h))

theorem topSlice_nodup_fst (tokens : List String) (n : Nat) :
    ((topSlice tokens n).map (fun e => e.1)).Nodup := by
  have hperm : List.Perm ((sortedEntries tokens).map (fun e => e.1))
      ((catCounts tokens).map (fun e => e.1)) :=
    (List.perm_insertionSort (entryRel tokens) (catCounts tokens)).map _
  have hnd : ((sortedEntries tokens).map (fun e => e.1)).Nodup := by
    rw [hperm.nodup_iff, map_fst_catCounts]
    exact uniqFirst_nodup tokens
  exact hnd.sublist ((topSlice_sublist tokens n).map _)

theorem topSlice_length (tokens : List String) (n : Nat) :
    (topSlice tokens n).length = min (max n 1) (distinctCount tokens) := by
  have hlen : (sortedEntries tokens).length = distinctCount tokens := by
    unfold sortedEntries
    rw [(List.perm_insertionSort (entryRel tokens) (catCounts tokens)).length_eq]
    unfold catCounts distinctCount
    exact List.length_map _ _
  unfold topSlice
  rw [List.length_take, hlen]
  omega

theorem topSlice_sorted (tokens : List String) (n : Nat) :
    (topSlice tokens n).Pairwise (entryRel tokens) :=
  ((List.sorted_insertionSort (entryRel tokens) (catCounts tokens))).sublist
    (topSlice_sublist tokens n)

theorem topSlice_pairwise_strict (tokens : List String) (n : Nat) :
    (topSlice tokens n).Pairwise (fun a b =>
      b.2 < a.2 ∨
      (a.2 = b.2 ∧ List.indexOf a.1 tokens < List.indexOf b.1 tokens)) := by
  have hne : (topSlice tokens n).Pairwise (fun a b => a.1 ≠ b.1) :=
    List.pairwise_map.mp (topSlice_nodup_fst tokens n)
  have hcomb := (topSlice_sorted tokens n).and hne
  refine hcomb.imp_of_mem ?_
  intro a b ha hb hr
  rcases hr with ⟨hrel | ⟨heq, hle⟩, hne'⟩
  · exact Or.inl hrel
  · refine Or.inr ⟨heq, lt_of_le_of_ne hle ?_⟩
    intro hidx
    exact hne' ((List.indexOf_inj (mem_topSlice ha).2 (mem_topSlice hb).2).mp hidx)

/-- Claim C2: the aggregate result has length `min(N, distinct category
count)` with `N` floored at 1, and consecutive returned categories are in
strictly descending count order, count-ties broken by first-encountered
order (strictly increasing position of first occurrence among the
tokens). -/
theorem topN_length_and_order (d : Dataset) (c : String) (ex : Bool) (n : Nat)
    (es : List CatEntry) (h : aggregate d c ex n = some es) :
    es.length = min (max n 1) (distinctCount (tokensOf d c ex)) ∧
    es.Pairwise (fun e1 e2 =>
      e2.count < e1.count ∨
      (e1.count = e2.count ∧
        List.indexOf e1.cat (tokensOf d c ex) < List.indexOf e2.cat (tokensOf d c ex))) := by
  have hes := aggregate_eq_addPcts h
  subst hes
  constructor
  · rw [addPcts, List.length_map]
    exact topSlice_length _ _
  · rw [addPcts, List.pairwise_map]
    exact topSlice_pairwise_strict _ _

/-- Concrete check of claim C2 on the specification example: the top-2
result has length `min 2 4 = 2` and is ordered C (3) before A (2). -/
theorem topN_length_and_order_witness :
    (addPcts [("C", 3), ("A", 2)]).length =
      min (max 2 1) (distinctCount (tokensOf dsStatus "status" false)) ∧
    (addPcts [("C", 3), ("A", 2)]).Pairwise (fun e1 e2 =>
      e2.count < e1.count ∨
      (e1.count = e2.count ∧
        List.indexOf e1.cat (tokensOf dsStatus "status" false) <
          List.indexOf e2.cat (tokensOf dsStatus "status" false))) := by
  have hs : topSlice (tokensOf dsStatus "status" false) 2 = [("C", 3), ("A", 2)] := by
    decide
  have hagg : aggregate dsStatus "status" false 2 = some (addPcts [("C", 3), ("A", 2)]) := by
    unfold aggregate
    rw [hs]
    rfl
  exact topN_length_and_order dsStatus "status" false 2 _ hagg

/-! ### Claim C1 -/

theorem countP_mem_cons (tokens : List String) (c : String) (cs : List String)
    (hc : c ∉ cs) :
    tokens.countP (fun t => t ∈ c :: cs) =
      tokens.count c + tokens.countP (fun t => t ∈ cs) := by
  induction tokens with
  | nil => rfl
  | cons t ts ih =>
    rw [List.countP_cons, List.countP_cons, List.count_cons, ih]
    by_cases htc : t = c <;> by_cases hts : t ∈ cs <;>
      simp [htc, hts, hc] <;> omega

theorem slice_sum_eq_countP (tokens : List String) (es : List (String × Nat))
    (hnd : (es.map (fun e => e.1)).Nodup)
    (hc : ∀ e ∈ es, e.2 = tokens.count e.1) :
    (es.map (fun e => e.2)).sum =
      tokens.countP (fun t => t ∈ es.map (fun e => e.1)) := by
  induction es with
  | nil => simp
  | cons e es ih =>
    rw [List.map_cons, List.sum_cons, List.map_cons,
      countP_mem_cons tokens e.1 (es.map (fun e => e.1))
        (by simpa using (List.nodup_cons.mp hnd).1),
      hc e (List.mem_cons_self _ _),
      ih (List.nodup_cons.mp hnd).2 (fun x hx => hc x (List.mem_cons_of_mem _ hx))]

theorem sum_sub_sum_abs_le (l : List α) (f g : α → ℚ) (eps : ℚ)
    (h : ∀ x ∈ l, |f x - g x| ≤ eps) :
    |(l.map f).sum - (l.map g).sum| ≤ (l.length : ℚ) * eps := by
  induction l with
  | nil => simp
  | cons a l ih =>
    have ha := h a (List.mem_cons_self _ _)
    have hl := ih (fun x hx => h x (List.mem_cons_of_mem _ hx))
    have hsplit : (f a + (l.map f).sum) - (g a + (l.map g).sum) =
        (f a - g a) + ((l.map f).sum - (l.map g).sum) := by ring
    rw [List.map_cons, List.sum_cons, List.map_cons, List.sum_cons, List.length_cons,
      hsplit]
    calc |(f a - g a) + ((l.map f).sum - (l.map g).sum)|
        ≤ |f a - g a| + |(l.map f).sum - (l.map g).sum| := abs_add _ _
      _ ≤ eps + (l.length : ℚ) * eps := by linarith
      _ = ((l.length : ℚ) + 1) * eps := by ring
      _ = (((l.length : ℕ) + 1 : ℕ) : ℚ) * eps := by push_cast; ring

theorem addPcts_exact_sum (slice : List (String × Nat)) (hpos : 0 < sliceTotal slice) :
    (slice.map (fun e => 100 * ((e.2 : ℕ) : ℚ) / ((sliceTotal slice : ℕ) : ℚ))).sum = 100 := by
  have hmm : slice.map (fun e => 100 * ((e.2 : ℕ) : ℚ) / ((sliceTotal slice : ℕ) : ℚ)) =
      (slice.map (fun e => e.2)).map
        (fun v : ℕ => 100 * (v : ℚ) / ((sliceTotal slice : ℕ) : ℚ)) := by
    rw [List.map_map]
    rfl
  rw [hmm, sum_map_pct]
  have hS : (((sliceTotal slice : ℕ) : ℚ)) ≠ 0 := by
    exact_mod_cast Nat.pos_iff_ne_zero.mp hpos
  unfold sliceTotal at hS ⊢
  rw [mul_div_assoc, div_self hS, mul_one]

theorem addPcts_sum_bound (slice : List (String × Nat)) (hpos : 0 < sliceTotal slice) :
    |((addPcts slice).map (fun e => e.pct)).sum - 100| ≤ (slice.length : ℚ) * (1 / 200) := by
  have hmap : (addPcts slice).map (fun e => e.pct) =
      slice.map (fun e => round2 (100 * ((e.2 : ℕ) : ℚ) / ((sliceTotal slice : ℕ) : ℚ))) := by
    unfold addPcts
    rw [List.map_map]
    rfl
  have hbound := sum_sub_sum_abs_le slice
    (fun e => round2 (100 * ((e.2 : ℕ) : ℚ) / ((sliceTotal slice : ℕ) : ℚ)))
    (fun e => 100 * ((e.2 : ℕ) : ℚ) / ((sliceTotal slice : ℕ) : ℚ))
    (1 / 200) (fun x _ => round2_close _)
  rw [addPcts_exact_sum slice hpos] at hbound
  rw [hmap]
  exact hbound

theorem sliceTotal_pos_of_ne_nil {tokens : List String} {n : Nat}
    (h : topSlice tokens n ≠ []) : 0 < sliceTotal (topSlice tokens n) := by
  rcases List.exists_mem_of_ne_nil _ h with ⟨e, he⟩
  have he2 := mem_topSlice he
  have hcpos : 0 < e.2 := by
    rw [he2.1]
    exact List.count_pos_iff.mpr he2.2
  have hle : e.2 ≤ sliceTotal (topSlice tokens n) :=
    List.single_le_sum (fun x _ => Nat.zero_le x) _ (List.mem_map_of_mem _ he)
  omega

/-- Claim C1 (amended): the returned counts sum to the number of tokens
falling in the returned categories (the slice); the exact slice-relative
percentages sum to exactly 100; the returned percentages, rounded to 2
decimals, sum to 100 within ±0.005·k where k is the number of returned
categories (±0.1 therefore holds only for k ≤ 20, see the
counterexample). -/
theorem counts_and_pcts_sum (d : Dataset) (c : String) (ex : Bool) (n : Nat)
    (es : List CatEntry) (h : aggregate d c ex n = some es) :
    (es.map (fun e => e.count)).sum =
      (tokensOf d c ex).countP (fun t => t ∈ es.map (fun e => e.cat)) ∧
    |(es.map (fun e => e.pct)).sum - 100| ≤ (es.length : ℚ) * (1 / 200) := by
  have hne : topSlice (tokensOf d c ex) n ≠ [] := by
    intro hnil
    unfold aggregate at h
    rw [hnil] at h
    simp at h
  have hpos := sliceTotal_pos_of_ne_nil hne
  have hes := aggregate_eq_addPcts h
  subst hes
  constructor
  · have hcnt : (addPcts (topSlice (tokensOf d c ex) n)).map (fun e => e.count) =
        (topSlice (tokensOf d c ex) n).map (fun e => e.2) := by
      unfold addPcts
      rw [List.map_map]
      rfl
    have hcat : (addPcts (topSlice (tokensOf d c ex) n)).map (fun e => e.cat) =
        (topSlice (tokensOf d c ex) n).map (fun e => e.1) := by
      unfold addPcts
      rw [List.map_map]
      rfl
    rw [hcnt, hcat]
    exact slice_sum_eq_countP _ _ (topSlice_nodup_fst _ _) (fun e he => (mem_topSlice he).1)
  · have hlen : (addPcts (topSlice (tokensOf d c ex) n)).length =
        (topSlice (tokensOf d c ex) n).length := List.length_map _ _
    rw [hlen]
    exact addPcts_sum_bound _ hpos

/-- Concrete check of the amended claim C1 on the specification example:
the top-2 counts sum to the number of rows in the slice and the rounded
percentages sum to 100 within `2 * 0.005`. -/
theorem counts_and_pcts_sum_witness :
    ((addPcts [("C", 3), ("A", 2)]).map (fun e => e.count)).sum =
      (tokensOf dsStatus "status" false).countP
        (fun t => t ∈ (addPcts [("C", 3), ("A", 2)]).map (fun e => e.cat)) ∧
    |((addPcts [("C", 3), ("A", 2)]).map (fun e => e.pct)).sum - 100| ≤
      ((addPcts [("C", 3), ("A", 2)]).length : ℚ) * (1 / 200) := by
  have hs : topSlice (tokensOf dsStatus "status" false) 2 = [("C", 3), ("A", 2)] := by
    decide
  have hagg : aggregate dsStatus "status" false 2 = some (addPcts [("C", 3), ("A", 2)]) := by
    unfold aggregate
    rw [hs]
    rfl
  exact counts_and_pcts_sum dsStatus "status" false 2 _ hagg

/-- Claim C1, counterexample to the stated ±0.1 tolerance: on the 32-row
dataset with 22 categories (counts 11 and 21 × 1, slice total 32), every
exact percentage is an odd multiple of 0.005, so rounding to 2 decimals
adds 0.005 per category and the returned percentages sum to 100.11 —
outside the claimed ±0.1. -/
theorem pct_tolerance_counterexample :
    aggregate dsManyCats "s" false 22 =
      some (addPcts [("A", 11), ("B01", 1), ("B02", 1), ("B03", 1), ("B04", 1), ("B05", 1),
        ("B06", 1), ("B07", 1), ("B08", 1), ("B09", 1), ("B10", 1), ("B11", 1), ("B12", 1),
        ("B13", 1), ("B14", 1), ("B15", 1), ("B16", 1), ("B17", 1), ("B18", 1), ("B19", 1),
        ("B20", 1), ("B21", 1)]) ∧
    ((addPcts [("A", 11), ("B01", 1), ("B02", 1), ("B03", 1), ("B04", 1), ("B05", 1),
        ("B06", 1), ("B07", 1), ("B08", 1), ("B09", 1), ("B10", 1), ("B11", 1), ("B12", 1),
        ("B13", 1), ("B14", 1), ("B15", 1), ("B16", 1), ("B17", 1), ("B18", 1), ("B19", 1),
        ("B20", 1), ("B21", 1)]).map (fun e => e.pct)).sum = 10011 / 100 ∧
    ¬ |(10011 / 100 : ℚ) - 100| ≤ 1 / 10 := by
  refine ⟨?_, ?_, ?_⟩
  · have hs : topSlice (tokensOf dsManyCats "s" false) 22 =
        [("A", 11), ("B01", 1), ("B02", 1), ("B03", 1), ("B04", 1), ("B05", 1),
         ("B06", 1), ("B07", 1), ("B08", 1), ("B09", 1), ("B10", 1), ("B11", 1), ("B12", 1),
         ("B13", 1), ("B14", 1), ("B15", 1), ("B16", 1), ("B17", 1), ("B18", 1), ("B19", 1),
         ("B20", 1), ("B21", 1)] := by decide
    unfold aggregate
    rw [hs]
    rfl
  · norm_num [addPcts, sliceTotal, round2, round_eq]
  · have habs : |(10011 / 100 : ℚ) - 100| = 11 / 100 := by
      rw [show (10011 / 100 : ℚ) - 100 = 11 / 100 by norm_num]
      exact abs_of_pos (by norm_num)
    rw [habs]
    norm_num

/-! ### Claim C5 -/

theorem keyLE_refl (asc : Bool) (a : Option String) : keyLE asc a a := by
  cases a with
  | none => trivial
  | some x => cases asc <;> simp [keyLE]

theorem keyLE_total (asc : Bool) (a b : Option String) :
    keyLE asc a b ∨ keyLE asc b a := by
  cases a with
  | none =>
    cases b with
    | none => exact Or.inl trivial
    | some y => exact Or.inr trivial
  | some x =>
    cases b with
    | none => exact Or.inl trivial
    | some y => cases asc <;> simp [keyLE] <;> exact le_total _ _

theorem keyLE_antisymm {asc : Bool} {a b : Option String}
    (h1 : keyLE asc a b) (h2 : keyLE asc b a) : a = b := by
  cases a with
  | none =>
    cases b with
    | none => rfl
    | some y => exact absurd h1 (by cases asc <;> simp [keyLE])
  | some x =>
    cases b with
    | none => exact absurd h2 (by cases asc <;> simp [keyLE])
    | some y =>
      cases asc with
      | true =>
        simp only [keyLE, if_pos rfl] at h1 h2
        exact congrArg some (le_antisymm h1 h2)
      | false =>
        simp only [keyLE] at h1 h2
        exact congrArg some (le_antisymm h2 h1)

theorem keyLE_trans {asc : Bool} {a b c : Option String}
    (h1 : keyLE asc a b) (h2 : keyLE asc b c) : keyLE asc a c := by
  cases a with
  | none =>
    cases b with
    | none => exact h2
    | some y => exact absurd h1 (by cases asc <;> simp [keyLE])
  | some x =>
    cases c with
    | none => trivial
    | some z =>
      cases b with
      | none => exact absurd h2 (by cases asc <;> simp [keyLE])
      | some y =>
        cases asc with
        | true =>
          simp only [keyLE, if_pos rfl] at h1 h2 ⊢
          exact le_trans h1 h2
        | false =>
          simp only [keyLE] at h1 h2 ⊢
          exact le_trans h2 h1

instance (c : String) (asc : Bool) : IsTotal (Nat × Row) (rowRel c asc) := by
  constructor
  intro a b
  by_cases hk : getCell a.2 c = getCell b.2 c
  · rcases Nat.le_total a.1 b.1 with h | h
    · exact Or.inl (Or.inr ⟨hk, h⟩)
    · exact Or.inr (Or.inr ⟨hk.symm, h⟩)
  · rcases keyLE_total asc (getCell a.2 c) (getCell b.2 c) with h | h
    · exact Or.inl (Or.inl ⟨h, hk⟩)
    · exact Or.inr (Or.inl ⟨h, fun he => hk he.symm⟩)

instance (c : String) (asc : Bool) : IsTrans (Nat × Row) (rowRel c asc) := by
  constructor
  rintro a b d (⟨hab, hab'⟩ | ⟨hab, hab'⟩) (⟨hbd, hbd'⟩ | ⟨hbd, hbd'⟩)
  · refine Or.inl ⟨keyLE_trans hab hbd, fun he => ?_⟩
    exact hbd' (keyLE_antisymm hbd (he ▸ hab))
  · exact Or.inl ⟨hbd ▸ hab, hbd ▸ hab'⟩
  · exact Or.inl ⟨hab ▸ hbd, fun he => hbd' (hab ▸ he)⟩
  · exact Or.inr ⟨hab.trans hbd, hab'.trans hbd'⟩

theorem sortRowsAux_sorted (c : String) (asc : Bool) (l : List Row) :
    (sortRowsAux c asc l).Pairwise (rowRel c asc) :=
  List.sorted_insertionSort (rowRel c asc) (withIdx 0 l)

theorem sortRows_pairwise_keyLE (c : String) (asc : Bool) (l : List Row) :
    (sortRows c asc l).Pairwise
      (fun r1 r2 => keyLE asc (getCell r1 c) (getCell r2 c)) := by
  unfold sortRows
  rw [List.pairwise_map]
  refine (sortRowsAux_sorted c asc l).imp ?_
  rintro a b (⟨h, _⟩ | ⟨h, _⟩)
  · exact h
  · rw [h]
    exact keyLE_refl asc _

theorem mem_withIdx_fst_ge {n : Nat} {l : List α} {p : Nat × α}
    (h : p ∈ withIdx n l) : n ≤ p.1 := by
  induction l generalizing n with
  | nil => cases h
  | cons a l ih =>
    rcases List.mem_cons.mp h with rfl | h
    · exact le_refl n
    · exact Nat.le_of_succ_le (ih h)

theorem withIdx_pairwise_fst_lt (n : Nat) (l : List α) :
    (withIdx n l).Pairwise (fun a b => a.1 < b.1) := by
  induction l generalizing n with
  | nil => exact List.Pairwise.nil
  | cons a l ih =>
    refine List.Pairwise.cons ?_ (ih (n + 1))
    intro p hp
    exact Nat.lt_of_succ_le (mem_withIdx_fst_ge hp)

theorem sortRowsAux_nodup_fst (c : String) (asc : Bool) (l : List Row) :
    ((sortRowsAux c asc l).map (fun p => p.1)).Nodup := by
  have hperm : List.Perm ((sortRowsAux c asc l).map (fun p => p.1))
      ((withIdx 0 l).map (fun p => p.1)) :=
    (List.perm_insertionSort (rowRel c asc) (withIdx 0 l)).map _
  rw [hperm.nodup_iff]
  have hlt : ((withIdx 0 l).map (fun p => p.1)).Pairwise (fun a b => a < b) :=
    List.pairwise_map.mpr (withIdx_pairwise_fst_lt 0 l)
  exact hlt.imp (fun h => Nat.ne_of_lt h)

theorem sortRowsAux_filter_fst_lt (c : String) (asc : Bool) (l : List Row)
    (k : Option String) :
    ((sortRowsAux c asc l).filter (fun p => getCell p.2 c == k)).Pairwise
      (fun a b => a.1 < b.1) := by
  have hs : ((sortRowsAux c asc l).filter (fun p => getCell p.2 c == k)).Pairwise
      (rowRel c asc) :=
    (sortRowsAux_sorted c asc l).filter _
  have hne : ((sortRowsAux c asc l).filter (fun p => getCell p.2 c == k)).Pairwise
      (fun a b => a.1 ≠ b.1) :=
    (List.pairwise_map.mp (sortRowsAux_nodup_fst c asc l)).filter _
  refine (hs.and hne).imp_of_mem ?_
  intro a b ha hb hr
  have hka : getCell a.2 c = k := by
    have := (List.mem_filter.mp ha).2
    exact eq_of_beq this
  have hkb : getCell b.2 c = k := by
    have := (List.mem_filter.mp hb).2
    exact eq_of_beq this
  rcases hr with ⟨⟨_, hkne⟩ | ⟨_, hle⟩, hne'⟩
  · exact absurd (hka.trans hkb.symm) hkne
  · exact lt_of_le_of_ne hle hne'

theorem sortRowsAux_filter_stable (c : String) (asc : Bool) (l : List Row)
    (k : Option String) :
    (sortRowsAux c asc l).filter (fun p => getCell p.2 c == k) =
      (withIdx 0 l).filter (fun p => getCell p.2 c == k) := by
  refine @List.eq_of_perm_of_sorted (Nat × Row) (fun a b : Nat × Row => a.1 < b.1)
    ⟨fun a b h1 h2 => absurd (Nat.lt_trans h1 h2) (Nat.lt_irrefl _)⟩ _ _ ?_ ?_ ?_
  · exact (List.perm_insertionSort (rowRel c asc) (withIdx 0 l)).filter _
  · exact sortRowsAux_filter_fst_lt c asc l k
  · exact (withIdx_pairwise_fst_lt 0 l).filter _

theorem withIdx_filter_map_snd (P : α → Bool) (n : Nat) (l : List α) :
    ((withIdx n l).filter (fun p => P p.2)).map (fun p => p.2) = l.filter P := by
  induction l generalizing n with
  | nil => rfl
  | cons a l ih =>
    by_cases hp : P a
    · simp [withIdx, List.filter_cons, hp, ih]
    · simp [withIdx, List.filter_cons, hp, ih]

theorem sortRows_filter_stable (c : String) (asc : Bool) (l : List Row)
    (k : Option String) :
    (sortRows c asc l).filter (fun r => getCell r c == k) =
      l.filter (fun r => getCell r c == k) := by
  unfold sortRows
  rw [List.filter_map]
  have hcomp : ((fun r => getCell r c == k) ∘ (fun p : Nat × Row => p.2)) =
      (fun p : Nat × Row => getCell p.2 c == k) := rfl
  rw [hcomp, sortRowsAux_filter_stable]
  exact withIdx_filter_map_snd (fun r => getCell r c == k) 0 l

/-- Claim C5: the table view applies the substring filter before sorting;
under a single-column sort on `sc` consecutive rows are `keyLE`-ordered in
the chosen direction (so for ascending sort every non-null value is `≤`
the next and null values come last), a null key is followed only by null
keys regardless of direction, and the sort is stable: for every key value
the rows carrying it appear in exactly their pre-sort (filtered) order. -/
theorem table_sort_behavior (d : Dataset) (cols : List String) (filt : Option String)
    (sc : String) (dir : Bool) :
    tableView d cols filt (some (sc, dir)) =
      sortRows sc dir (filterRows cols filt (d.rows.map (projectRow cols))) ∧
    (tableView d cols filt (some (sc, dir))).Pairwise
      (fun r1 r2 => keyLE dir (getCell r1 sc) (getCell r2 sc)) ∧
    (tableView d cols filt (some (sc, dir))).Pairwise
      (fun r1 r2 => getCell r1 sc = none → getCell r2 sc = none) ∧
    ∀ k : Option String,
      (tableView d cols filt (some (sc, dir))).filter (fun r => getCell r sc == k) =
        (filterRows cols filt (d.rows.map (projectRow cols))).filter
          (fun r => getCell r sc == k) := by
  refine ⟨rfl, ?_, ?_, ?_⟩
  · exact sortRows_pairwise_keyLE sc dir _
  · refine (sortRows_pairwise_keyLE sc dir _).imp ?_
    intro a b h hnone
    rw [hnone] at h
    cases hb : getCell b sc with
    | none => rfl
    | some y =>
      rw [hb] at h
      exact absurd h (by cases dir <;> simp [keyLE])
  · intro k
    exact sortRows_filter_stable sc dir _ k

/-- Concrete check of claim C5 on a four-row, one-column dataset with a
null, a tie and unsorted values, ascending sort. -/
theorem table_sort_behavior_witness :
    tableView ⟨[[("c", some "b")], [("c", none)], [("c", some "a")], [("c", some "b")]]⟩
        ["c"] none (some ("c", true)) =
      sortRows "c" true (filterRows ["c"] none
        ((⟨[[("c", some "b")], [("c", none)], [("c", some "a")], [("c", some "b")]]⟩ :
          Dataset).rows.map (projectRow ["c"]))) ∧
    (tableView ⟨[[("c", some "b")], [("c", none)], [("c", some "a")], [("c", some "b")]]⟩
        ["c"] none (some ("c", true))).Pairwise
      (fun r1 r2 => keyLE true (getCell r1 "c") (getCell r2 "c")) ∧
    (tableView ⟨[[("c", some "b")], [("c", none)], [("c", some "a")], [("c", some "b")]]⟩
        ["c"] none (some ("c", true))).Pairwise
      (fun r1 r2 => getCell r1 "c" = none → getCell r2 "c" = none) ∧
    (tableView ⟨[[("c", some "b")], [("c", none)], [("c", some "a")], [("c", some "b")]]⟩
        ["c"] none (some ("c", true))).filter (fun r => getCell r "c" == some "b") =
      (filterRows ["c"] none
        ((⟨[[("c", some "b")], [("c", none)], [("c", some "a")], [("c", some "b")]]⟩ :
          Dataset).rows.map (projectRow ["c"]))).filter
        (fun r => getCell r "c" == some "b") := by
  have h := table_sort_behavior
    ⟨[[("c", some "b")], [("c", none)], [("c", some "a")], [("c", some "b")]]⟩
    ["c"] none "c" true
  exact ⟨h.1, h.2.1, h.2.2.1, h.2.2.2 (some "b")⟩

/-! ### Claim C6 -/

theorem asString_toList (s : String) : s.toList.asString = s := rfl

theorem asString_data (s : String) : s.data.asString = s := rfl

theorem csvStep_plain {ch : Char} (h1 : ch ≠ '"') (h2 : ch ≠ ',') (h3 : ch ≠ '\n')
    (f : List Char) (r : List String) (o : List (List String)) :
    csvStep ⟨CsvMode.normal, f, r, o⟩ ch = ⟨CsvMode.normal, f ++ [ch], r, o⟩ := by
  simp [csvStep, h1, h2, h3]

theorem csvStep_comma_normal (f : List Char) (r : List String) (o : List (List String)) :
    csvStep ⟨CsvMode.normal, f, r, o⟩ ',' = ⟨CsvMode.normal, [], r ++ [f.asString], o⟩ := by
  simp [csvStep]

theorem csvStep_comma_after (f : List Char) (r : List String) (o : List (List String)) :
    csvStep ⟨CsvMode.afterQuote, f, r, o⟩ ',' = ⟨CsvMode.normal, [], r ++ [f.asString], o⟩ := by
  simp [csvStep]

theorem csvStep_newline_normal (f : List Char) (r : List String) (o : List (List String)) :
    csvStep ⟨CsvMode.normal, f, r, o⟩ '\n' =
      ⟨CsvMode.normal, [], [], o ++ [r ++ [f.asString]]⟩ := by
  simp [csvStep]

theorem csvStep_newline_after (f : List Char) (r : List String) (o : List (List String)) :
    csvStep ⟨CsvMode.afterQuote, f, r, o⟩ '\n' =
      ⟨CsvMode.normal, [], [], o ++ [r ++ [f.asString]]⟩ := by
  simp [csvStep]

theorem run_raw (cs : List Char) (h : ∀ ch ∈ cs, ch ≠ '"' ∧ ch ≠ ',' ∧ ch ≠ '\n')
    (f : List Char) (r : List String) (o : List (List String)) :
    List.foldl csvStep ⟨CsvMode.normal, f, r, o⟩ cs = ⟨CsvMode.normal, f ++ cs, r, o⟩ := by
  induction cs generalizing f with
  | nil => simp
  | cons ch cs ih =>
    have hc := h ch (List.mem_cons_self _ _)
    rw [List.foldl_cons, csvStep_plain hc.1 hc.2.1 hc.2.2,
      ih (fun x hx => h x (List.mem_cons_of_mem _ hx))]
    simp

theorem run_escape (cs : List Char) (f : List Char) (r : List String)
    (o : List (List String)) :
    List.foldl csvStep ⟨CsvMode.quoted, f, r, o⟩ (escapeQuotes cs) =
      ⟨CsvMode.quoted, f ++ cs, r, o⟩ := by
  induction cs generalizing f with
  | nil => simp [escapeQuotes]
  | cons ch cs ih =>
    by_cases h : ch = '"'
    · subst h
      have e1 : csvStep ⟨CsvMode.quoted, f, r, o⟩ '"' = ⟨CsvMode.afterQuote, f, r, o⟩ := by
        simp [csvStep]
      have e2 : csvStep ⟨CsvMode.afterQuote, f, r, o⟩ '"' =
          ⟨CsvMode.quoted, f ++ ['"'], r, o⟩ := by
        simp [csvStep]
      rw [show escapeQuotes ('"' :: cs) = '"' :: '"' :: escapeQuotes cs from by
        simp [escapeQuotes]]
      rw [List.foldl_cons, List.foldl_cons, e1, e2, ih]
      simp
    · have e1 : csvStep ⟨CsvMode.quoted, f, r, o⟩ ch = ⟨CsvMode.quoted, f ++ [ch], r, o⟩ := by
        simp [csvStep, h]
      rw [show escapeQuotes (ch :: cs) = ch :: escapeQuotes cs from by
        simp [escapeQuotes, h]]
      rw [List.foldl_cons, e1, ih]
      simp

theorem run_encodeField (s : String) (r : List String) (o : List (List String)) :
    List.foldl csvStep ⟨CsvMode.normal, [], r, o⟩ (encodeField s) =
        ⟨CsvMode.normal, s.toList, r, o⟩ ∨
    List.foldl csvStep ⟨CsvMode.normal, [], r, o⟩ (encodeField s) =
        ⟨CsvMode.afterQuote, s.toList, r, o⟩ := by
  unfold encodeField
  by_cases hq : needsQuote s
  · rw [if_pos hq]
    refine Or.inr ?_
    have e1 : csvStep ⟨CsvMode.normal, [], r, o⟩ '"' = ⟨CsvMode.quoted, [], r, o⟩ := by
      simp [csvStep]
    rw [List.foldl_cons, e1, List.foldl_append, run_escape]
    simp [csvStep]
  · rw [if_neg hq]
    refine Or.inl ?_
    have hplain : ∀ ch ∈ s.toList, ch ≠ '"' ∧ ch ≠ ',' ∧ ch ≠ '\n' := by
      intro ch hch
      by_contra hcon
      apply hq
      unfold needsQuote
      rw [List.any_eq_true]
      refine ⟨ch, hch, ?_⟩
      push_neg at hcon
      by_cases h1 : ch = '"'
      · simp [h1]
      · by_cases h2 : ch = ','
        · simp [h2]
        · simp [h1, h2, hcon h1 h2]
    have := run_raw s.toList hplain [] r o
    rw [this]
    simp

theorem run_encodeRecord (fs : List String) (f : String) (r : List String)
    (o : List (List String)) :
    List.foldl csvStep ⟨CsvMode.normal, [], r, o⟩ (encodeRecord (fs ++ [f])) =
        ⟨CsvMode.normal, f.toList, r ++ fs, o⟩ ∨
    List.foldl csvStep ⟨CsvMode.normal, [], r, o⟩ (encodeRecord (fs ++ [f])) =
        ⟨CsvMode.afterQuote, f.toList, r ++ fs, o⟩ := by
  induction fs generalizing r with
  | nil =>
    have h := run_encodeField f r o
    simpa [encodeRecord, joinSep] using h
  | cons g fs ih =>
    have hsplit : encodeRecord ((g :: fs) ++ [f]) =
        encodeField g ++ [','] ++ encodeRecord (fs ++ [f]) := by
      unfold encodeRecord
      rcases fs with _ | ⟨g2, fs2⟩ <;> simp [joinSep]
    rw [hsplit, List.foldl_append, List.foldl_append]
    rcases run_encodeField g r o with hg | hg <;>
      rw [hg] <;>
      simp only [List.foldl_cons, List.foldl_nil, csvStep_comma_normal,
        csvStep_comma_after, asString_toList] <;>
      simpa using ih (r ++ [g])

theorem run_records (recs : List (List String)) (hne : recs ≠ [])
    (h : ∀ rec ∈ recs, rec ≠ []) (o : List (List String)) :
    csvFinish (List.foldl csvStep ⟨CsvMode.normal, [], [], o⟩
      (joinSep ['\n'] (recs.map encodeRecord))) = o ++ recs := by
  induction recs generalizing o with
  | nil => exact absurd rfl hne
  | cons rec rest ih =>
    have hrec := h rec (List.mem_cons_self _ _)
    obtain ⟨fs, f, rfl⟩ : ∃ fs f, rec = fs ++ [f] := by
      rcases List.eq_nil_or_concat rec with hnil | ⟨fs, f, hconcat⟩
      · exact absurd hnil hrec
      · exact ⟨fs, f, by rw [hconcat, List.concat_eq_append]⟩
    rcases rest with _ | ⟨rec2, rest2⟩
    · simp only [List.map_cons, List.map_nil, joinSep]
      rcases run_encodeRecord fs f [] o with hr | hr <;>
        rw [hr] <;>
        simp [csvFinish, asString_toList, asString_data]
    · have hsplit : joinSep ['\n'] (((fs ++ [f]) :: rec2 :: rest2).map encodeRecord) =
          encodeRecord (fs ++ [f]) ++ ['\n'] ++
            joinSep ['\n'] ((rec2 :: rest2).map encodeRecord) := by
        simp [joinSep]
      rw [hsplit, List.foldl_append, List.foldl_append]
      have hrest := ih (by simp) (fun x hx => h x (List.mem_cons_of_mem _ hx))
        (o ++ [fs ++ [f]])
      rcases run_encodeRecord fs f [] o with hr | hr <;>
        rw [hr] <;>
        simp only [List.foldl_cons, List.foldl_nil, csvStep_newline_normal,
          csvStep_newline_after, asString_toList, asString_data, List.nil_append] <;>
        rw [hrest] <;>
        simp

/-- Claim C6: exporting a view (a nonempty header and rectangular string
rows) to CSV and re-parsing the produced text yields exactly the original
header and rows.  In this string-level model the round trip is exact, so
it holds in particular up to type widening of numeric strings. -/
theorem csv_roundtrip (cols : List String) (rws : List (List String))
    (hcols : cols ≠ []) (hr : ∀ row ∈ rws, row.length = cols.length) :
    parseCSV (writeCSV cols rws) = some (cols, rws) := by
  have hall : ∀ rec ∈ cols :: rws, rec ≠ [] := by
    intro rec hrec
    rcases List.mem_cons.mp hrec with rfl | hrec
    · exact hcols
    · intro hnil
      have := hr rec hrec
      rw [hnil] at this
      simp at this
      exact hcols (List.eq_nil_of_length_eq_zero this.symm)
  have hrun := run_records (cols :: rws) (by simp) hall []
  have hrecs : parseRecords (writeCSV cols rws) = cols :: rws := by
    unfold parseRecords writeCSV csvInit
    rw [hrun]
    simp
  unfold parseCSV
  rw [hrecs]

/-- Concrete check of claim C6: a view whose cells contain commas, quotes
and a line break round-trips exactly. -/
theorem csv_roundtrip_witness :
    parseCSV (writeCSV ["a", "b"] [["x,y", "q\"z"], ["", "two\nlines"]]) =
      some (["a", "b"], [["x,y", "q\"z"], ["", "two\nlines"]]) :=
  csv_roundtrip ["a", "b"] [["x,y", "q\"z"], ["", "two\nlines"]]
    (by decide) (by decide)
